import Mathlib

/-!
Shallow embedding of the scheduling core of
`packages/server/src/fhir/operations/utils/find.ts` (the Medplum
`Schedule/$find` operation), together with proofs of its interval-algebra
properties.

Timestamps are modelled as `Int` millisecond values (JS `Date.valueOf()`).
Timezone-aware operations take an explicit UTC offset parameter `oz`
(milliseconds added to a UTC instant to obtain local wall-clock time);
this models a fixed-offset timezone context such as `tz('America/New_York')`
over a DST-free range.  All date-fns helpers used by the source
(`areIntervalsOverlapping`, `clamp`, `interval`, `add`, `eachDayOfInterval`,
`startOfMinute`, `getMinutes`) are modelled from their date-fns v4
semantics.
-/

namespace MedplumFind

/-- An interval of absolute timestamps in milliseconds.  The source field
`end` is a Lean keyword, so it is named `stop` here. -/
structure Interval where
  start : Int
  stop : Int
deriving DecidableEq, Repr, Inhabited

/-- Model of date-fns `areIntervalsOverlapping(left, right, options)`:
date-fns first sorts each interval's two endpoints, then compares with
strict (default) or inclusive (`options.inclusive`) bounds. -/
def areIntervalsOverlapping (inclusive : Bool) (left right : Interval) : Bool :=
  let ls := min left.start left.stop
  let le := max left.start left.stop
  let rs := min right.start right.stop
  let re := max right.start right.stop
  if inclusive then decide (ls ≤ re ∧ rs ≤ le) else decide (ls < re ∧ rs < le)

/-- Model of date-fns `clamp(date, interval)`: `min(max(date, start), end)`. -/
def clamp (t : Int) (i : Interval) : Int := min (max t i.start) i.stop

/-- find.ts lines 33-39. -/
def intersectIntervals (left right : Interval) : Option Interval :=
  if areIntervalsOverlapping false left right then
    some ⟨clamp left.start right, clamp left.stop right⟩
  else none

/-- find.ts lines 49-58. -/
def mergeIntervals (left right : Interval) : Option Interval :=
  if areIntervalsOverlapping true left right then
    some ⟨if left.start < right.start then left.start else right.start,
          if left.stop > right.stop then left.stop else right.stop⟩
  else none

/-- The JS sort comparator `(a, b) => a.start.valueOf() - b.start.valueOf()`
of find.ts line 104, as an ordering relation. -/
def startLE (a b : Interval) : Prop := a.start ≤ b.start

instance : DecidableRel startLE :=
  fun a b => inferInstanceAs (Decidable (a.start ≤ b.start))

instance : IsTotal Interval startLE := ⟨fun a b => Int.le_total a.start b.start⟩

instance : IsTrans Interval startLE := ⟨fun _ _ _ h h2 => le_trans h h2⟩

/-- The body of the `sorted.reduce` fold of find.ts lines 105-123:
`last` is the final accumulator entry; a successful merge replaces it,
otherwise the current interval is appended after it. -/
def normReduce (last : Interval) : List Interval → List Interval
  | [] => [last]
  | cur :: rest =>
    match mergeIntervals last cur with
    | some merged => normReduce merged rest
    | none => last :: normReduce cur rest

/-- find.ts lines 100-124.  JS `Array.prototype.sort` is a stable sort and
the output of a stable sort is unique, so the sort is modelled by
insertion sort over the same comparator. -/
def normalizeIntervals (intervals : List Interval) : List Interval :=
  if intervals.length < 2 then intervals
  else
    match List.insertionSort startLE intervals with
    | [] => []
    | x :: xs => normReduce x xs

/-- The first inner `while` loop of `removeAvailability`
(find.ts lines 144-146): advance the blocked cursor past every blocked
interval that ends at or before `currentStart`. -/
def skipBlocks (currentStart : Int) : List Interval → List Interval
  | [] => []
  | b :: rest =>
    if b.stop ≤ currentStart then skipBlocks currentStart rest else b :: rest

/-- The second inner `while` loop of `removeAvailability`
(find.ts lines 149-166) together with the trailing remainder push
(lines 169-171).  Returns the intervals pushed onto `result` for one
available interval, and the remaining blocked list: the blocked cursor
survives across available intervals, and the `break` on line 162 leaves
the current blocked interval under the cursor. -/
def carve (availableEnd : Int) : Int → List Interval → List Interval × List Interval
  | currentStart, [] =>
    ((if currentStart < availableEnd then [⟨currentStart, availableEnd⟩] else []), [])
  | currentStart, b :: rest =>
    if b.start < availableEnd then
      let gap := if currentStart < b.start then
        [(⟨currentStart, b.start⟩ : Interval)] else []
      let cs := if b.stop > currentStart then b.stop else currentStart
      if b.stop ≥ availableEnd then
        (gap ++ (if cs < availableEnd then [⟨cs, availableEnd⟩] else []), b :: rest)
      else
        let pr := carve availableEnd cs rest
        (gap ++ pr.1, pr.2)
    else
      ((if currentStart < availableEnd then [⟨currentStart, availableEnd⟩] else []),
        b :: rest)

/-- The outer `for` loop of `removeAvailability` (find.ts lines 139-172). -/
def removeLoop : List Interval → List Interval → List Interval
  | _, [] => []
  | blocked, a :: rest =>
    let pr := carve a.stop a.start (skipBlocks a.start blocked)
    pr.1 ++ removeLoop pr.2 rest

/-- find.ts lines 131-175. -/
def removeAvailability (availableIntervals blockedIntervals : List Interval) :
    List Interval :=
  if blockedIntervals.isEmpty then availableIntervals
  else removeLoop blockedIntervals availableIntervals

/-- FHIR `Slot.status` values. -/
inductive SlotStatus where
  | busy
  | free
  | busyUnavailable
  | busyTentative
  | enteredInError
deriving DecidableEq

/-- A pre-existing booking: a FHIR Slot with its parsed start/end instants. -/
structure Slot where
  start : Int
  stop : Int
  status : SlotStatus
deriving DecidableEq

/-- Model of the date-fns `interval(start, end, ...)` constructor with
`assertPositive: true` (find.ts lines 195 and 202): it throws exactly when
the start is strictly after the end (a zero-length interval is accepted);
the throw is modelled as `none`. -/
def interval (s e : Int) : Option Interval :=
  if s > e then none else some ⟨s, e⟩

/-- find.ts lines 187-206.  A throwing `interval(...)` constructor call is
propagated as `none`; the free-booking intervals are built first, then the
busy ones, as in the source. -/
def applyExistingSlots (availability : List Interval) (slots : List Slot)
    (range : Interval) : Option (List Interval) := do
  let freeRaw ← (slots.filter (fun s => decide (s.status = SlotStatus.free))).mapM
    (fun s => interval s.start s.stop)
  let freeSlotIntervals :=
    (freeRaw.map (fun i => intersectIntervals i range)).filterMap id
  let busyRaw ← (slots.filter (fun s =>
      decide (s.status = SlotStatus.busy ∨ s.status = SlotStatus.busyUnavailable))).mapM
    (fun s => interval s.start s.stop)
  let busySlotIntervals := normalizeIntervals busyRaw
  let allAvailability := normalizeIntervals (availability ++ freeSlotIntervals)
  return removeAvailability allAvailability busySlotIntervals

/-- find.ts line 22. -/
inductive DayOfWeek where
  | mon
  | tue
  | wed
  | thu
  | fri
  | sat
  | sun
deriving DecidableEq

/-- find.ts line 23. -/
def dayNames : List DayOfWeek :=
  [.sun, .mon, .tue, .wed, .thu, .fri, .sat]

/-- One day in milliseconds. -/
def dayMs : Int := 86400000

/-- JS `Date.prototype.getDay` under a fixed UTC offset `oz`: the
day-of-week index (0 = Sunday) of the local calendar day containing `t`.
The epoch day 1970-01-01 was a Thursday (index 4). -/
def getDay (oz t : Int) : Int := ((t + oz) / dayMs + 4) % 7

/-- date-fns `eachDayOfInterval(range, opts)` under a fixed UTC offset:
the local midnight of every calendar day touching the range, ascending.
Models the forward case (`range.start ≤ range.stop`); the `$find` handler
rejects reversed ranges before the core is invoked. -/
def eachDayOfInterval (oz : Int) (range : Interval) : List Int :=
  let firstDay := range.start - (range.start + oz) % dayMs
  if range.stop < firstDay then []
  else (List.range ((range.stop - firstDay) / dayMs + 1).toNat).map
    (fun k => firstDay + dayMs * k)

/-- A parsed `HH:MM:SS` entry of `availability.timeOfDay`
(`timeOfDay.split(':').map(Number)`, find.ts line 82). -/
structure TimeOfDay where
  hours : Int
  minutes : Int
  seconds : Int
deriving DecidableEq

/-- One weekly recurring availability rule of `SchedulingParameters`. -/
structure Availability where
  dayOfWeek : List DayOfWeek
  timeOfDay : List TimeOfDay
  duration : Int
deriving DecidableEq

/-- The `SchedulingParameters` contract consumed by the core. -/
structure SchedulingParameters where
  availability : List Availability
  duration : Int
  bufferBefore : Int
  bufferAfter : Int
  alignmentInterval : Int
  alignmentOffset : Int
  wildcard : Bool
deriving DecidableEq

/-- find.ts lines 69-90.  date-fns `add` with hour/minute/second components
is exact millisecond arithmetic. -/
def resolveAvailability (oz : Int) (schedulingParameters : SchedulingParameters)
    (range : Interval) : List Interval :=
  (eachDayOfInterval oz range).flatMap (fun dayStart =>
    let dow := dayNames.getD (getDay oz dayStart).toNat DayOfWeek.sun
    ((schedulingParameters.availability.filter
        (fun a => a.dayOfWeek.contains dow)).flatMap
      (fun a => a.timeOfDay.map (fun t =>
        let s := dayStart + t.hours * 3600000 + t.minutes * 60000 + t.seconds * 1000
        intersectIntervals ⟨s, s + a.duration * 60000⟩ range))).filterMap id)

/-- find.ts lines 211-214: round a date up to the next exact minute
(`startOfMinute` truncates seconds/milliseconds; under a whole-minute
timezone offset the local truncation agrees with the UTC one). -/
def advanceToMinuteMark (t : Int) : Int :=
  let s := t - t % 60000
  if t = s then t else s + 60000

/-- find.ts lines 220-222: the source's true modulo, built from the JS `%`
remainder operator, which is the truncating remainder `Int.tmod`. -/
def mod (n d : Int) : Int := (n.tmod d + d).tmod d

/-- JS `Date.prototype.getMinutes` under a fixed UTC offset: the
minute-of-hour of the local wall-clock time. -/
def getMinutes (oz t : Int) : Int := (t + oz) / 60000 % 60

/-- The alignment options of `findAlignedSlots` (find.ts lines 237-241). -/
structure AlignOptions where
  alignment : Int
  offsetMinutes : Int
  durationMinutes : Int
deriving DecidableEq

/-- The `while` loop of `findAlignedSlots` (find.ts lines 254-259), with a
fuel bound.  The fuel chosen in `findAlignedSlots` dominates the number of
iterations whenever `alignment ≥ 1` (its documented range is `[1, 60]`),
so the model agrees with the source there; for `alignment ≤ 0` the source
loop would never terminate. -/
def alignLoop (stepMs durMs endLimit : Int) : Nat → Int → List Interval
  | 0, _ => []
  | fuel + 1, start =>
    if start + durMs ≤ endLimit then
      ⟨start, start + durMs⟩ :: alignLoop stepMs durMs endLimit fuel (start + stepMs)
    else []

/-- find.ts lines 235-261. -/
def findAlignedSlots (oz : Int) (iv : Interval) (options : AlignOptions) :
    List Interval :=
  let firstMinuteStart := advanceToMinuteMark iv.start
  let remainder :=
    mod (getMinutes oz firstMinuteStart - options.offsetMinutes) options.alignment
  let toAlign := if remainder = 0 then 0 else options.alignment - remainder
  let start := firstMinuteStart + toAlign * 60000
  let durMs := options.durationMinutes * 60000
  let fuel := ((iv.stop - durMs - start).toNat / 60000) + 1
  alignLoop (options.alignment * 60000) durMs iv.stop fuel start

/-! ## Semantic notions used by the specification -/

/-- An interval is well-formed when it is nonempty under the half-open
reading used throughout the spec. -/
def Interval.wf (i : Interval) : Prop := i.start < i.stop

instance (i : Interval) : Decidable i.wf :=
  inferInstanceAs (Decidable (i.start < i.stop))

/-- The instant `x` lies in the half-open interval `i`. -/
def Interval.mem (x : Int) (i : Interval) : Prop := i.start ≤ x ∧ x < i.stop

instance (x : Int) (i : Interval) : Decidable (Interval.mem x i) :=
  inferInstanceAs (Decidable (_ ∧ _))

/-- The instant `x` is covered by some interval of the list. -/
def covers (l : List Interval) (x : Int) : Prop := ∃ i ∈ l, Interval.mem x i

instance (l : List Interval) (x : Int) : Decidable (covers l x) :=
  inferInstanceAs (Decidable (∃ i ∈ l, Interval.mem x i))

/-- A `Decidable` instance for `List.Chain'` that evaluates by structural
recursion (the Mathlib instance does not reduce inside the kernel). -/
def chainDec (R : Interval → Interval → Prop) [DecidableRel R] :
    (l : List Interval) → Decidable (List.Chain' R l)
  | [] => isTrue List.chain'_nil
  | [a] => isTrue (List.chain'_singleton a)
  | a :: b :: t =>
    haveI : Decidable (List.Chain' R (b :: t)) := chainDec R (b :: t)
    decidable_of_iff (R a b ∧ List.Chain' R (b :: t)) List.chain'_cons.symm

/-- A normalized interval list: every interval well-formed, sorted
ascending by start, and pairwise non-overlapping (consecutive intervals
may touch). -/
def Normalized (l : List Interval) : Prop :=
  (∀ i ∈ l, i.wf) ∧ l.Chain' (fun a b => a.stop ≤ b.start)

instance (l : List Interval) : Decidable (Normalized l) :=
  haveI := chainDec (fun a b => a.stop ≤ b.start) l
  inferInstanceAs (Decidable (_ ∧ _))

/-- A strictly normalized interval list: well-formed, sorted ascending by
start, with a strict gap between consecutive intervals (touching intervals
have been fused away, as `normalizeIntervals` produces). -/
def StrictNormalized (l : List Interval) : Prop :=
  (∀ i ∈ l, i.wf) ∧ l.Chain' (fun a b => a.stop < b.start)

instance (l : List Interval) : Decidable (StrictNormalized l) :=
  haveI := chainDec (fun a b => a.stop < b.start) l
  inferInstanceAs (Decidable (_ ∧ _))

/-- Endpoint separation: all endpoints of `a` lie strictly below all
endpoints of `b`.  This is the gap the normalisation fold establishes
between consecutive output entries. -/
def Sep (a b : Interval) : Prop := max a.start a.stop < min b.start b.stop

instance (a b : Interval) : Decidable (Sep a b) :=
  inferInstanceAs (Decidable (_ < _))

instance : IsTrans Interval Sep :=
  ⟨fun _ _ _ h h2 => lt_of_lt_of_le h (le_trans (min_le_max) h2.le)⟩

/-! ## Basic lemmas about coverage and normalized lists -/

theorem covers_nil (x : Int) : ¬ covers [] x := by
  rintro ⟨i, hi, _⟩
  exact absurd hi (List.not_mem_nil i)

theorem covers_cons {i : Interval} {l : List Interval} {x : Int} :
    covers (i :: l) x ↔ Interval.mem x i ∨ covers l x := by
  constructor
  · rintro ⟨j, hj, hx⟩
    rcases List.mem_cons.mp hj with rfl | hj
    · exact Or.inl hx
    · exact Or.inr ⟨j, hj, hx⟩
  · rintro (hx | ⟨j, hj, hx⟩)
    · exact ⟨i, List.mem_cons_self i l, hx⟩
    · exact ⟨j, List.mem_cons_of_mem i hj, hx⟩

theorem covers_append {l₁ l₂ : List Interval} {x : Int} :
    covers (l₁ ++ l₂) x ↔ covers l₁ x ∨ covers l₂ x := by
  constructor
  · rintro ⟨j, hj, hx⟩
    rcases List.mem_append.mp hj with hj | hj
    · exact Or.inl ⟨j, hj, hx⟩
    · exact Or.inr ⟨j, hj, hx⟩
  · rintro (⟨j, hj, hx⟩ | ⟨j, hj, hx⟩)
    · exact ⟨j, List.mem_append.mpr (Or.inl hj), hx⟩
    · exact ⟨j, List.mem_append.mpr (Or.inr hj), hx⟩

theorem covers_singleton {i : Interval} {x : Int} :
    covers [i] x ↔ Interval.mem x i := by
  rw [covers_cons]
  simp [covers_nil]

theorem covers_perm {l₁ l₂ : List Interval} (h : l₁.Perm l₂) (x : Int) :
    covers l₁ x ↔ covers l₂ x := by
  constructor <;> rintro ⟨j, hj, hx⟩
  · exact ⟨j, h.mem_iff.mp hj, hx⟩
  · exact ⟨j, h.mem_iff.mpr hj, hx⟩

theorem covers_ge {l : List Interval} {c x : Int} (h : ∀ i ∈ l, c ≤ i.start)
    (hc : covers l x) : c ≤ x := by
  obtain ⟨i, hi, hx⟩ := hc
  exact le_trans (h i hi) hx.1

theorem Normalized.cons {a : Interval} {l : List Interval}
    (h : Normalized (a :: l)) : Normalized l ∧ ∀ i ∈ l, a.stop ≤ i.start := by
  induction l generalizing a with
  | nil => exact ⟨⟨by simp, List.chain'_nil⟩, by simp⟩
  | cons b t ih =>
    obtain ⟨hwf, hch⟩ := h
    rw [List.chain'_cons] at hch
    have hbN : Normalized (b :: t) :=
      ⟨fun i hi => hwf i (List.mem_cons_of_mem a hi), hch.2⟩
    obtain ⟨htN, hble⟩ := ih hbN
    refine ⟨hbN, ?_⟩
    intro i hi
    rcases List.mem_cons.mp hi with rfl | hi
    · exact hch.1
    · have hb : b.start < b.stop := hwf b (by simp)
      exact le_trans hch.1 (le_trans hb.le (hble i hi))

/-! ## Claim C10: empty blocked list is a right identity -/

/-- Claim C10: for every interval list `available`, even one violating the
normalization precondition, `removeAvailability available []` returns
exactly `available` unchanged. -/
theorem removeAvailability_empty_blocked (available : List Interval) :
    removeAvailability available [] = available := by
  simp [removeAvailability]

/-! ## Claim C2: midnight-crossing resolution -/

/-- The fixed UTC offset of America/New_York in winter (EST, UTC-5),
in milliseconds: local time = UTC + offset. -/
def nyWinterOffset : Int := -18000000

/-- The scheduling parameters of the midnight-crossing test:
`dayOfWeek=[mon]`, `timeOfDay=[15:20:00]`, `duration=600` minutes. -/
def midnightParams : SchedulingParameters :=
  ⟨[⟨[.mon], [⟨15, 20, 0⟩], 600⟩], 20, 0, 0, 60, 0, true⟩

/-- The query range 2025-11-30T00:00:00.000-05:00 (= 1764478800000 ms)
through 2025-12-03T23:59:59.999-05:00 (= 1764824399999 ms). -/
def midnightRange : Interval := ⟨1764478800000, 1764824399999⟩

/-- Claim C2: resolving `dayOfWeek=[mon]`, `timeOfDay=[15:20:00]`,
`duration=600` over a range spanning Nov 30 - Dec 3, 2025 in
America/New_York yields exactly one interval, 2025-12-01T20:20:00Z
(= 1764620400000 ms) to 2025-12-02T06:20:00Z (= 1764656400000 ms): the
interval crosses local midnight and is not truncated at the day boundary,
being clipped only against the requested range. -/
theorem resolveAvailability_midnight_crossing :
    resolveAvailability nyWinterOffset midnightParams midnightRange =
      [⟨1764620400000, 1764656400000⟩] := by decide

/-! ## Claim C5: booking overlay -/

/-- Claim C5: with one availability interval 09:00-12:00 (ms values on an
arbitrary day) and a single `busy` booking 10:00-10:30 inside the range,
the overlay yields [09:00-10:00, 10:30-12:00]; with instead a single
`free` booking 13:00-13:30 outside the prior availability, the overlay
yields the original interval plus 13:00-13:30, in normalized form. -/
theorem applyExistingSlots_overlay :
    applyExistingSlots [⟨32400000, 43200000⟩] [⟨36000000, 37800000, .busy⟩]
        ⟨0, 86400000⟩ =
      some [⟨32400000, 36000000⟩, ⟨37800000, 43200000⟩] ∧
    applyExistingSlots [⟨32400000, 43200000⟩] [⟨46800000, 48600000, .free⟩]
        ⟨0, 86400000⟩ =
      some [⟨32400000, 43200000⟩, ⟨46800000, 48600000⟩] := by
  constructor <;> decide

/-! ## Claim C7: asymmetry of the two overlap predicates -/

/-- Unfolded form of `intersectIntervals`: date-fns sorts each interval's
endpoints before the strict overlap comparison. -/
theorem intersectIntervals_eq (a b : Interval) :
    intersectIntervals a b =
      if min a.start a.stop < max b.start b.stop ∧
          min b.start b.stop < max a.start a.stop
      then some ⟨clamp a.start b, clamp a.stop b⟩ else none := by
  simp [intersectIntervals, areIntervalsOverlapping]

/-- Unfolded form of `mergeIntervals`: the inclusive overlap comparison. -/
theorem mergeIntervals_eq (a b : Interval) :
    mergeIntervals a b =
      if min a.start a.stop ≤ max b.start b.stop ∧
          min b.start b.stop ≤ max a.start a.stop
      then some ⟨if a.start < b.start then a.start else b.start,
                 if a.stop > b.stop then a.stop else b.stop⟩
      else none := by
  simp [mergeIntervals, areIntervalsOverlapping]

/-- Claim C7: for valid intervals, exactly-touching endpoints
(`a.stop = b.start`) make `intersectIntervals` return `none` but
`mergeIntervals` return the union `(a.start, b.stop)`; disjoint
non-touching pairs give `none` for both; truly overlapping pairs give the
clamped overlap region for intersect and the spanning union for merge. -/
theorem intersect_merge_endpoint_asymmetry (a b : Interval)
    (ha : a.wf) (hb : b.wf) :
    (a.stop = b.start →
      intersectIntervals a b = none ∧
      mergeIntervals a b = some ⟨a.start, b.stop⟩) ∧
    (a.stop < b.start ∨ b.stop < a.start →
      intersectIntervals a b = none ∧ mergeIntervals a b = none) ∧
    (max a.start b.start < min a.stop b.stop →
      intersectIntervals a b = some ⟨max a.start b.start, min a.stop b.stop⟩ ∧
      mergeIntervals a b = some ⟨min a.start b.start, max a.stop b.stop⟩) := by
  rw [Interval.wf] at ha hb
  refine ⟨fun h => ⟨?_, ?_⟩, fun h => ⟨?_, ?_⟩, fun h => ⟨?_, ?_⟩⟩
  · rw [intersectIntervals_eq]
    split_ifs with hc
    · exact absurd hc (by omega)
    · rfl
  · rw [mergeIntervals_eq]
    split_ifs <;>
      first
        | rfl
        | (exfalso; omega)
  · rw [intersectIntervals_eq]
    split_ifs with hc
    · exact absurd hc (by omega)
    · rfl
  · rw [mergeIntervals_eq]
    split_ifs with hc
    · exact absurd hc (by omega)
    · rfl
  · rw [intersectIntervals_eq]
    split_ifs with hc
    · simp only [Option.some.injEq, Interval.mk.injEq, clamp, min_def, max_def]
      split_ifs <;> omega
    · exact absurd (by omega : min a.start a.stop < max b.start b.stop ∧
        min b.start b.stop < max a.start a.stop) hc
  · rw [mergeIntervals_eq]
    split_ifs <;>
      first
        | (exfalso; omega)
        | (simp only [Option.some.injEq, Interval.mk.injEq]; omega)

/-! ## The source's true-modulo function -/

theorem tmod_neg_dividend (a b : Int) : (-a).tmod b = -(a.tmod b) := by
  simp only [Int.tmod_def, Int.neg_tdiv]
  ring

theorem tmod_bounds (a : Int) {d : Int} (hd : 0 < d) :
    -d < a.tmod d ∧ a.tmod d < d := by
  refine ⟨?_, Int.tmod_lt_of_pos a hd⟩
  rcases le_or_lt 0 a with h | h
  · have := Int.tmod_nonneg d h
    omega
  · have h3 := Int.tmod_lt_of_pos (-a) hd
    rw [tmod_neg_dividend] at h3
    omega

theorem tmod_sub_dvd (a d : Int) : d ∣ (a - a.tmod d) :=
  ⟨a.tdiv d, by linarith [Int.tdiv_add_tmod a d]⟩

theorem emod_sub_dvd (a d : Int) : d ∣ (a - a % d) :=
  ⟨a / d, by rw [Int.emod_def]; ring⟩

/-- Range and congruence characterisation of the source's `mod`. -/
theorem mod_spec (n : Int) {d : Int} (hd : 0 < d) :
    0 ≤ mod n d ∧ mod n d < d ∧ d ∣ (n - mod n d) := by
  unfold mod
  have hb := tmod_bounds n hd
  have h1 : 0 ≤ n.tmod d + d := by omega
  rw [Int.tmod_eq_emod h1 hd.le]
  refine ⟨Int.emod_nonneg _ (by omega), Int.emod_lt_of_pos _ hd, ?_⟩
  have h3 := emod_sub_dvd (n.tmod d + d) d
  have h4 := tmod_sub_dvd n d
  have h5 :
      n - (n.tmod d + d) % d =
        (n - n.tmod d) + ((n.tmod d + d) - (n.tmod d + d) % d) - d := by ring
  rw [h5]
  exact dvd_sub (dvd_add h4 h3) dvd_rfl

/-- `mod` is determined by its range and congruence properties. -/
theorem mod_eq_of (n r : Int) {d : Int} (hd : 0 < d) (h0 : 0 ≤ r) (h1 : r < d)
    (hdvd : d ∣ n - r) : mod n d = r := by
  obtain ⟨hm0, hm1, hmd⟩ := mod_spec n hd
  have hdd : d ∣ (mod n d - r) := by
    have h2 := dvd_sub hdvd hmd
    have h3 : n - r - (n - mod n d) = mod n d - r := by ring
    rwa [h3] at h2
  have habs : |mod n d - r| < d := by
    rw [abs_lt]
    constructor <;> omega
  have hz : mod n d - r = 0 := Int.eq_zero_of_abs_lt_dvd hdd habs
  omega

theorem mod_eq_zero_of_dvd {n d : Int} (hd : 0 < d) (h : d ∣ n) : mod n d = 0 :=
  mod_eq_of n 0 hd le_rfl hd (by simpa using h)

/-! ## Slot alignment lemmas -/

theorem dvd_emod_sixty_sub {a : Int} (h : a ∣ 60) (x : Int) :
    a ∣ (x % 60 - x) := by
  have h2 : x % 60 - x = -(60 * (x / 60)) := by
    rw [Int.emod_def]; ring
  rw [h2]
  exact dvd_neg.mpr (Dvd.dvd.mul_right h _)

theorem advanceToMinuteMark_dvd (t : Int) :
    (60000 : Int) ∣ advanceToMinuteMark t := by
  simp only [advanceToMinuteMark]
  split_ifs with h
  · have h2 : t % 60000 = 0 := by omega
    exact Int.dvd_of_emod_eq_zero h2
  · exact dvd_add (emod_sub_dvd t 60000) dvd_rfl

theorem advanceToMinuteMark_ge (t : Int) : t ≤ advanceToMinuteMark t := by
  simp only [advanceToMinuteMark]
  have h0 : 0 ≤ t % 60000 := Int.emod_nonneg t (by norm_num)
  split_ifs with h <;> omega

theorem getMinutes_eq {oz t q : Int} (h : t + oz = 60000 * q) :
    getMinutes oz t = q % 60 := by
  unfold getMinutes
  rw [h, Int.mul_ediv_cancel_left _ (by norm_num)]

theorem alignLoop_mem (stepMs durMs endLimit : Int) :
    ∀ (fuel : Nat) (start : Int) (s : Interval),
      s ∈ alignLoop stepMs durMs endLimit fuel start →
      ∃ k : Nat, s.start = start + k * stepMs ∧ s.stop = s.start + durMs ∧
        s.stop ≤ endLimit := by
  intro fuel
  induction fuel with
  | zero =>
    intro start s hs
    simp [alignLoop] at hs
  | succ n ih =>
    intro start s hs
    rw [alignLoop] at hs
    split_ifs at hs with hcond
    · rcases List.mem_cons.mp hs with rfl | hs
      · exact ⟨0, by simp, rfl, hcond⟩
      · obtain ⟨k, h1, h2, h3⟩ := ih (start + stepMs) s hs
        refine ⟨k + 1, ?_, h2, h3⟩
        rw [h1]
        push_cast
        ring
    · simp at hs

/-- Claim C3 (amended): for every slot emitted by `findAlignedSlots` with
`alignment ≥ 1` and `durationMinutes > 0`, the slot's length is exactly
`durationMinutes` and its end does not exceed the input interval's end;
and when additionally the timezone offset is a whole number of minutes and
`alignment` divides 60, the slot's start minute-of-hour measured from
`offsetMinutes` modulo `alignment` equals 0. -/
theorem findAlignedSlots_grid (oz : Int) (iv : Interval) (o : AlignOptions)
    (ha : 1 ≤ o.alignment) (hd : 0 < o.durationMinutes) :
    (∀ s ∈ findAlignedSlots oz iv o,
        s.stop - s.start = o.durationMinutes * 60000 ∧ s.stop ≤ iv.stop) ∧
    ((60000 : Int) ∣ oz → o.alignment ∣ 60 →
      ∀ s ∈ findAlignedSlots oz iv o,
        mod (getMinutes oz s.start - o.offsetMinutes) o.alignment = 0) := by
  have ha0 : 0 < o.alignment := by omega
  obtain ⟨F, hF⟩ := advanceToMinuteMark_dvd iv.start
  constructor
  · intro s hs
    simp only [findAlignedSlots] at hs
    obtain ⟨k, h1, h2, h3⟩ := alignLoop_mem _ _ _ _ _ _ hs
    exact ⟨by omega, h3⟩
  · intro hoz hdvd s hs
    obtain ⟨z, hz⟩ := hoz
    simp only [findAlignedSlots] at hs
    obtain ⟨k, h1, h2, h3⟩ := alignLoop_mem _ _ _ _ _ _ hs
    -- Abbreviations for the let-bound quantities of findAlignedSlots
    set f := advanceToMinuteMark iv.start with hf
    set r := mod (getMinutes oz f - o.offsetMinutes) o.alignment with hr
    set toAlign := if r = 0 then 0 else o.alignment - r with hta
    -- the first-slot quantities
    have hgf : getMinutes oz f = (F + z) % 60 :=
      getMinutes_eq (by rw [hF, hz]; ring)
    obtain ⟨hr0, hr1, hrd⟩ := mod_spec (getMinutes oz f - o.offsetMinutes) ha0
    rw [← hr] at hrd
    rw [hgf] at hrd
    have hdv1 : o.alignment ∣ ((F + z) % 60 - (F + z)) := dvd_emod_sixty_sub hdvd _
    -- alignment divides (F + z - offset - r)
    have hdv2 : o.alignment ∣ (F + z - o.offsetMinutes - r) := by
      have h5 := dvd_sub hrd hdv1
      have h6 : (F + z) % 60 - o.offsetMinutes - r - ((F + z) % 60 - (F + z)) =
          F + z - o.offsetMinutes - r := by ring
      rwa [h6] at h5
    -- the start of slot s in minutes
    have hstart : s.start + oz = 60000 * (F + z + toAlign + k * o.alignment) := by
      rw [h1, hF, hz]
      ring
    have hgs : getMinutes oz s.start = (F + z + toAlign + k * o.alignment) % 60 :=
      getMinutes_eq hstart
    -- alignment divides the pre-modulo minute count measured from offset
    have hdv3 : o.alignment ∣ (F + z + toAlign + k * o.alignment - o.offsetMinutes) := by
      have hk : o.alignment ∣ ((k : Int) * o.alignment) := Dvd.intro_left _ rfl
      rcases eq_or_ne r 0 with hrz | hrz
      · have hta0 : toAlign = 0 := by rw [hta, if_pos hrz]
        have h7 : F + z + toAlign + k * o.alignment - o.offsetMinutes =
            (F + z - o.offsetMinutes - r) + (k : Int) * o.alignment := by
          rw [hta0, hrz]; ring
        rw [h7]
        exact dvd_add hdv2 hk
      · have hta0 : toAlign = o.alignment - r := by rw [hta, if_neg hrz]
        have h7 : F + z + toAlign + k * o.alignment - o.offsetMinutes =
            (F + z - o.offsetMinutes - r) + o.alignment + (k : Int) * o.alignment := by
          rw [hta0]; ring
        rw [h7]
        exact dvd_add (dvd_add hdv2 dvd_rfl) hk
    -- conclude via the modulo characterisation
    rw [hgs]
    refine mod_eq_zero_of_dvd ha0 ?_
    have h8 := dvd_add (dvd_emod_sixty_sub hdvd (F + z + toAlign + k * o.alignment)) hdv3
    have h9 : (F + z + toAlign + k * o.alignment) % 60 -
        (F + z + toAlign + k * o.alignment) +
        (F + z + toAlign + k * o.alignment - o.offsetMinutes) =
        (F + z + toAlign + k * o.alignment) % 60 - o.offsetMinutes := by ring
    rwa [h9] at h8

/-- Claim C3 counterexample: with `alignment = 7` (inside the claimed range
`[1, 60]` but not dividing 60) and `durationMinutes = 7` on the interval
0 - 70 minutes, an emitted slot (the one starting at minute 63) has start
minute-of-hour 3, so its distance from `offsetMinutes = 0` modulo the
alignment is 3, not 0: the grid property fails as stated. -/
theorem findAlignedSlots_grid_counterexample :
    ∃ s ∈ findAlignedSlots 0 ⟨0, 4200000⟩ ⟨7, 0, 7⟩,
      mod (getMinutes 0 s.start - 0) 7 ≠ 0 := by decide

/-! ## Claim C6: ordering of the final slot list -/

theorem alignLoop_head (stepMs durMs endLimit : Int) (fuel : Nat) (start : Int) :
    (alignLoop stepMs durMs endLimit fuel start).head? = none ∨
    (alignLoop stepMs durMs endLimit fuel start).head? =
      some ⟨start, start + durMs⟩ := by
  cases fuel with
  | zero => exact Or.inl rfl
  | succ n =>
    rw [alignLoop]
    split_ifs
    · exact Or.inr rfl
    · exact Or.inl rfl

theorem alignLoop_chain (stepMs durMs endLimit : Int) (hsd : durMs ≤ stepMs) :
    ∀ (fuel : Nat) (start : Int),
      List.Chain' (fun s t => s.stop ≤ t.start)
        (alignLoop stepMs durMs endLimit fuel start) := by
  intro fuel
  induction fuel with
  | zero =>
    intro start
    simp [alignLoop]
  | succ n ih =>
    intro start
    rw [alignLoop]
    split_ifs with hcond
    · rw [List.chain'_cons']
      refine ⟨?_, ih (start + stepMs)⟩
      intro y hy
      rcases alignLoop_head stepMs durMs endLimit n (start + stepMs) with h | h <;>
          rw [Option.mem_def, h] at hy
      · exact absurd hy (by simp)
      · obtain rfl : y = ⟨start + stepMs, start + stepMs + durMs⟩ :=
          (Option.some.injEq _ _).mp hy.symm
        show start + durMs ≤ start + stepMs
        omega
    · simp

theorem findAlignedSlots_bounds (oz : Int) (iv : Interval) (o : AlignOptions)
    (ha : 1 ≤ o.alignment) :
    ∀ s ∈ findAlignedSlots oz iv o, iv.start ≤ s.start ∧ s.stop ≤ iv.stop := by
  intro s hs
  have ha0 : 0 < o.alignment := by omega
  simp only [findAlignedSlots] at hs
  obtain ⟨k, h1, h2, h3⟩ := alignLoop_mem _ _ _ _ _ _ hs
  refine ⟨?_, h3⟩
  have hge := advanceToMinuteMark_ge iv.start
  obtain ⟨hr0, hr1, _⟩ :=
    mod_spec (getMinutes oz (advanceToMinuteMark iv.start) - o.offsetMinutes) ha0
  have hk : (0:Int) ≤ (k : Int) * (o.alignment * 60000) :=
    mul_nonneg (Nat.cast_nonneg k) (by omega)
  rw [h1]
  split_ifs <;> omega

theorem findAlignedSlots_wf (oz : Int) (iv : Interval) (o : AlignOptions)
    (hd : 0 < o.durationMinutes) :
    ∀ s ∈ findAlignedSlots oz iv o, s.wf := by
  intro s hs
  simp only [findAlignedSlots] at hs
  obtain ⟨k, h1, h2, h3⟩ := alignLoop_mem _ _ _ _ _ _ hs
  rw [Interval.wf, h2]
  omega

theorem findAlignedSlots_chain (oz : Int) (iv : Interval) (o : AlignOptions)
    (hda : o.durationMinutes ≤ o.alignment) :
    List.Chain' (fun s t => s.stop ≤ t.start) (findAlignedSlots oz iv o) := by
  simp only [findAlignedSlots]
  exact alignLoop_chain _ _ _ (by omega) _ _

theorem chain'_flatMap_slots (oz : Int) (o : AlignOptions) (ha : 1 ≤ o.alignment)
    (hda : o.durationMinutes ≤ o.alignment) :
    ∀ (avail : List Interval), Normalized avail →
      List.Chain' (fun s t => s.stop ≤ t.start)
        (avail.flatMap (fun iv => findAlignedSlots oz iv o)) := by
  intro avail
  induction avail with
  | nil =>
    intro _
    simp
  | cons a rest ih =>
    intro hN
    obtain ⟨hrestN, hge⟩ := hN.cons
    rw [List.flatMap_cons, List.chain'_append]
    refine ⟨findAlignedSlots_chain oz a o hda, ih hrestN, ?_⟩
    intro x hx y hy
    have hx2 : x ∈ findAlignedSlots oz a o := List.mem_of_mem_getLast? hx
    have hy2 : y ∈ rest.flatMap (fun iv => findAlignedSlots oz iv o) :=
      List.mem_of_mem_head? hy
    obtain ⟨iv2, hiv2, hy3⟩ := List.mem_flatMap.mp hy2
    have hb1 := (findAlignedSlots_bounds oz a o ha x hx2).2
    have hb2 := (findAlignedSlots_bounds oz iv2 o ha y hy3).1
    have hgl := hge iv2 hiv2
    omega

/-- Claim C6 (amended): concatenating `findAlignedSlots` over a normalized
availability list yields slots sorted ascending with no two slots
overlapping, provided `durationMinutes ≤ alignment`; each emitted slot is
well-formed.  (When `durationMinutes > alignment`, consecutive slots of a
single interval overlap; see the counterexample.) -/
theorem alignedSlots_ordered (oz : Int) (avail : List Interval) (o : AlignOptions)
    (hN : Normalized avail) (ha : 1 ≤ o.alignment) (hd : 0 < o.durationMinutes)
    (hda : o.durationMinutes ≤ o.alignment) :
    List.Chain' (fun s t => s.stop ≤ t.start)
      (avail.flatMap (fun iv => findAlignedSlots oz iv o)) ∧
    ∀ s ∈ avail.flatMap (fun iv => findAlignedSlots oz iv o), s.wf := by
  refine ⟨chain'_flatMap_slots oz o ha hda avail hN, ?_⟩
  intro s hs
  obtain ⟨iv, hiv, hs2⟩ := List.mem_flatMap.mp hs
  exact findAlignedSlots_wf oz iv o hd s hs2

/-- Claim C6 counterexample: with availability `[0, 3h)` (normalized) and
the valid alignment spec `alignment = 60`, `offsetMinutes = 0`,
`durationMinutes = 90`, the concatenated slot list contains two
overlapping slots (`[0, 90min)` and `[60min, 150min)`): the output is not
pairwise non-overlapping as claimed. -/
theorem alignedSlots_overlap_counterexample :
    ∃ s ∈ [(⟨0, 10800000⟩ : Interval)].flatMap
        (fun iv => findAlignedSlots 0 iv ⟨60, 0, 90⟩),
      ∃ t ∈ [(⟨0, 10800000⟩ : Interval)].flatMap
        (fun iv => findAlignedSlots 0 iv ⟨60, 0, 90⟩),
      s.start < t.start ∧ t.start < s.stop := by decide

/-! ## Claims C4 and C9: normalization soundness and idempotence -/

theorem mergeIntervals_none_iff (a b : Interval) :
    mergeIntervals a b = none ↔
      (max b.start b.stop < min a.start a.stop ∨
       max a.start a.stop < min b.start b.stop) := by
  rw [mergeIntervals_eq]
  by_cases hc : (min a.start a.stop ≤ max b.start b.stop ∧
      min b.start b.stop ≤ max a.start a.stop)
  · rw [if_pos hc]
    constructor
    · intro h
      exact absurd h (by simp)
    · intro h
      exfalso
      omega
  · rw [if_neg hc]
    constructor
    · intro _
      omega
    · intro _
      rfl

theorem mergeIntervals_some {a b m : Interval} (h : mergeIntervals a b = some m) :
    m.start = min a.start b.start ∧ m.stop = max a.stop b.stop ∧
    min a.start a.stop ≤ max b.start b.stop ∧
    min b.start b.stop ≤ max a.start a.stop := by
  rw [mergeIntervals_eq] at h
  by_cases hc : (min a.start a.stop ≤ max b.start b.stop ∧
      min b.start b.stop ≤ max a.start a.stop)
  · rw [if_pos hc] at h
    have h2 := (Option.some.inj h).symm
    refine ⟨?_, ?_, hc.1, hc.2⟩ <;> rw [h2] <;> dsimp only <;>
      split_ifs <;> omega
  · rw [if_neg hc] at h
    exact absurd h (by simp)

theorem merge_covers {a b m : Interval} (hab : a.start ≤ b.start)
    (hm : mergeIntervals a b = some m) (p : Int) :
    Interval.mem p m ↔ Interval.mem p a ∨ Interval.mem p b := by
  obtain ⟨h1, h2, h3, h4⟩ := mergeIntervals_some hm
  rw [Interval.mem, Interval.mem, Interval.mem, h1, h2]
  omega

theorem normReduce_spec :
    ∀ (l : List Interval) (last : Interval), List.Chain' startLE (last :: l) →
      (∃ h t, normReduce last l = h :: t ∧ h.start = last.start ∧
        last.stop ≤ h.stop) ∧
      List.Chain' Sep (normReduce last l) ∧
      (∀ p, covers (normReduce last l) p ↔ covers (last :: l) p) := by
  intro l
  induction l with
  | nil =>
    intro last _
    exact ⟨⟨last, [], rfl, rfl, le_rfl⟩, List.chain'_singleton last,
      fun p => Iff.rfl⟩
  | cons cur rest ih =>
    intro last hch
    rw [List.chain'_cons] at hch
    obtain ⟨h1, hch'⟩ := hch
    rw [startLE] at h1
    rw [normReduce]
    cases hm : mergeIntervals last cur with
    | some merged =>
      obtain ⟨hs1, hs2, _, _⟩ := mergeIntervals_some hm
      have hcr := List.chain'_cons'.mp hch'
      have hch2 : List.Chain' startLE (merged :: rest) := by
        rw [List.chain'_cons']
        refine ⟨?_, hcr.2⟩
        intro y hy
        have h3 := hcr.1 y hy
        rw [startLE] at h3 ⊢
        omega
      obtain ⟨⟨h, t, heq, hhs, hhe⟩, hsep, hcov⟩ := ih merged hch2
      refine ⟨⟨h, t, heq, ?_, ?_⟩, hsep, ?_⟩
      · rw [hhs, hs1]
        omega
      · rw [hs2] at hhe
        omega
      · intro p
        rw [hcov p, covers_cons, covers_cons, covers_cons,
          merge_covers h1 hm p]
        tauto
    | none =>
      obtain ⟨⟨h, t, heq, hhs, hhe⟩, hsep, hcov⟩ := ih cur hch'
      rw [mergeIntervals_none_iff] at hm
      have hm2 : max last.start last.stop < min cur.start cur.stop := by omega
      refine ⟨⟨last, normReduce cur rest, rfl, rfl, le_rfl⟩, ?_, ?_⟩
      · rw [heq, List.chain'_cons]
        refine ⟨?_, heq ▸ hsep⟩
        rw [Sep]
        omega
      · intro p
        rw [covers_cons, covers_cons, hcov p, covers_cons]

theorem normalizeIntervals_spec (xs : List Interval) :
    List.Chain' Sep (normalizeIntervals xs) ∧
    (∀ p, covers (normalizeIntervals xs) p ↔ covers xs p) := by
  rw [normalizeIntervals]
  split_ifs with hlen
  · refine ⟨?_, fun p => Iff.rfl⟩
    match xs, hlen with
    | [], _ => exact List.chain'_nil
    | [a], _ => exact List.chain'_singleton a
    | a :: b :: t, h => exact absurd h (by simp)
  · have hperm := List.perm_insertionSort startLE xs
    have hsorted := List.sorted_insertionSort startLE xs
    cases his : List.insertionSort startLE xs with
    | nil =>
      rw [his] at hperm
      have hx : xs = [] := hperm.symm.eq_nil
      rw [hx] at hlen
      exact absurd (by simp : ([] : List Interval).length < 2) hlen
    | cons x xs2 =>
      rw [his] at hperm hsorted
      have hch : List.Chain' startLE (x :: xs2) :=
        List.chain'_iff_pairwise.mpr hsorted
      obtain ⟨_, hsep, hcov⟩ := normReduce_spec xs2 x hch
      refine ⟨hsep, fun p => ?_⟩
      rw [hcov p]
      exact covers_perm hperm p

/-- Claim C4: for every interval list `xs` the output of
`normalizeIntervals` is sorted ascending by start, pairwise
non-overlapping under the half-open point-set reading, has no
mergeable (overlapping or exactly-touching) consecutive pair left, and
covers exactly the same point-set union of instants as `xs`. -/
theorem normalizeIntervals_sound (xs : List Interval) :
    List.Chain' (fun a b => a.start ≤ b.start) (normalizeIntervals xs) ∧
    (normalizeIntervals xs).Pairwise
      (fun a b => ∀ x, ¬ (Interval.mem x a ∧ Interval.mem x b)) ∧
    List.Chain' (fun a b => mergeIntervals a b = none) (normalizeIntervals xs) ∧
    (∀ x, covers (normalizeIntervals xs) x ↔ covers xs x) := by
  obtain ⟨hsep, hcov⟩ := normalizeIntervals_spec xs
  refine ⟨?_, ?_, ?_, hcov⟩
  · refine hsep.imp (fun _ _ hab => ?_)
    rw [Sep] at hab
    omega
  · have hp := List.chain'_iff_pairwise.mp hsep
    refine hp.imp (fun hab x hx => ?_)
    rw [Sep] at hab
    obtain ⟨⟨h1, h2⟩, h3, h4⟩ := hx
    omega
  · refine hsep.imp (fun _ _ hab => ?_)
    rw [Sep] at hab
    exact (mergeIntervals_none_iff _ _).mpr (Or.inr hab)

theorem normReduce_fix :
    ∀ (l : List Interval) (last : Interval), List.Chain' Sep (last :: l) →
      normReduce last l = last :: l := by
  intro l
  induction l with
  | nil =>
    intro last _
    rfl
  | cons cur rest ih =>
    intro last hch
    rw [List.chain'_cons] at hch
    have hm : mergeIntervals last cur = none :=
      (mergeIntervals_none_iff _ _).mpr (Or.inr hch.1)
    rw [normReduce, hm, ih cur hch.2]

theorem chain'_sep_of_strict :
    ∀ (l : List Interval), (∀ i ∈ l, i.wf) →
      List.Chain' (fun a b => a.stop < b.start) l → List.Chain' Sep l := by
  intro l
  induction l with
  | nil =>
    intro _ _
    exact List.chain'_nil
  | cons a t ih =>
    intro hwf hch
    cases t with
    | nil => exact List.chain'_singleton a
    | cons b t2 =>
      rw [List.chain'_cons] at hch ⊢
      refine ⟨?_, ih (fun i hi => hwf i (List.mem_cons_of_mem a hi)) hch.2⟩
      have ha := hwf a (List.mem_cons_self a _)
      have hb := hwf b (List.mem_cons_of_mem a (List.mem_cons_self b _))
      rw [Interval.wf] at ha hb
      rw [Sep]
      have := hch.1
      omega

theorem normalizeIntervals_fix (l : List Interval) (h : List.Chain' Sep l) :
    normalizeIntervals l = l := by
  rw [normalizeIntervals]
  split_ifs with hlen
  · rfl
  · have hch : List.Chain' startLE l := by
      refine h.imp (fun _ _ hab => ?_)
      rw [Sep] at hab
      rw [startLE]
      omega
    have hsorted : List.Sorted startLE l := List.chain'_iff_pairwise.mp hch
    rw [List.Sorted.insertionSort_eq hsorted]
    cases l with
    | nil => rfl
    | cons x xs => exact normReduce_fix xs x h

/-- Claim C9: `normalizeIntervals` is idempotent on every interval list,
and returns an already strictly-normalized input unchanged. -/
theorem normalizeIntervals_idempotent (xs : List Interval) :
    normalizeIntervals (normalizeIntervals xs) = normalizeIntervals xs ∧
    (StrictNormalized xs → normalizeIntervals xs = xs) := by
  constructor
  · exact normalizeIntervals_fix _ (normalizeIntervals_spec xs).1
  · intro hs
    obtain ⟨hwf, hch⟩ := hs
    exact normalizeIntervals_fix xs (chain'_sep_of_strict xs hwf hch)

/-! ## Claim C1: subtraction correctness of removeAvailability -/

theorem covers_nil_iff (x : Int) : covers [] x ↔ False :=
  ⟨covers_nil x, False.elim⟩

theorem Interval.mem_def (x : Int) (i : Interval) :
    Interval.mem x i ↔ (i.start ≤ x ∧ x < i.stop) := Iff.rfl

theorem covers_if_singleton (c : Prop) [Decidable c] (i : Interval) (x : Int) :
    covers (if c then [i] else []) x ↔ c ∧ Interval.mem x i := by
  split_ifs with h
  · rw [covers_singleton]
    tauto
  · rw [covers_nil_iff]
    tauto

theorem carve_nil (ae cs : Int) :
    carve ae cs [] = ((if cs < ae then [⟨cs, ae⟩] else []), []) := rfl

theorem carve_cons_break {ae : Int} {b : Interval} (cs : Int)
    (rest : List Interval) (h1 : b.start < ae) (h2 : b.stop ≥ ae) :
    carve ae cs (b :: rest) =
      ((if cs < b.start then [(⟨cs, b.start⟩ : Interval)] else []) ++
        (if (if b.stop > cs then b.stop else cs) < ae
          then [⟨if b.stop > cs then b.stop else cs, ae⟩] else []),
        b :: rest) := by
  simp only [carve, if_pos h1, if_pos h2]

theorem carve_cons_rec {ae : Int} {b : Interval} (cs : Int)
    (rest : List Interval) (h1 : b.start < ae) (h2 : ¬ b.stop ≥ ae) :
    carve ae cs (b :: rest) =
      ((if cs < b.start then [(⟨cs, b.start⟩ : Interval)] else []) ++
        (carve ae (if b.stop > cs then b.stop else cs) rest).1,
        (carve ae (if b.stop > cs then b.stop else cs) rest).2) := by
  simp only [carve, if_pos h1, if_neg h2]

theorem carve_cons_skip {ae : Int} {b : Interval} (cs : Int)
    (rest : List Interval) (h1 : ¬ b.start < ae) :
    carve ae cs (b :: rest) =
      ((if cs < ae then [⟨cs, ae⟩] else []), b :: rest) := by
  simp only [carve, if_neg h1]

theorem skipBlocks_spec (cs : Int) :
    ∀ (l : List Interval), Normalized l →
      Normalized (skipBlocks cs l) ∧
      ∀ x, cs ≤ x → (covers (skipBlocks cs l) x ↔ covers l x) := by
  intro l
  induction l with
  | nil =>
    intro _
    exact ⟨⟨fun i hi => absurd hi (List.not_mem_nil i), List.chain'_nil⟩,
      fun x _ => Iff.rfl⟩
  | cons b rest ih =>
    intro hN
    rw [skipBlocks]
    split_ifs with hb
    · obtain ⟨hrestN, _⟩ := hN.cons
      obtain ⟨h1, h2⟩ := ih hrestN
      refine ⟨h1, fun x hx => ?_⟩
      rw [h2 x hx, covers_cons]
      constructor
      · exact Or.inr
      · rintro (hmem | h)
        · exact absurd hmem.2 (by omega)
        · exact h
    · exact ⟨hN, fun x _ => Iff.rfl⟩

theorem carve_spec (ae : Int) :
    ∀ (l : List Interval) (cs : Int), Normalized l →
      (∀ x, covers (carve ae cs l).1 x ↔ (cs ≤ x ∧ x < ae ∧ ¬ covers l x)) ∧
      (∀ x, ae ≤ x → (covers (carve ae cs l).2 x ↔ covers l x)) ∧
      Normalized (carve ae cs l).2 := by
  intro l
  induction l with
  | nil =>
    intro cs _
    rw [carve_nil]
    refine ⟨fun x => ?_, fun x _ => Iff.rfl, ⟨by simp, List.chain'_nil⟩⟩
    rw [covers_if_singleton, Interval.mem_def, covers_nil_iff]
    dsimp only
    simp only [not_false_eq_true, and_true]
    omega
  | cons b rest ih =>
    intro cs hN
    obtain ⟨hrestN, hge⟩ := hN.cons
    have hbwf := hN.1 b (List.mem_cons_self b rest)
    rw [Interval.wf] at hbwf
    have hcs2 : b.stop ≤ (if b.stop > cs then b.stop else cs) ∧
        cs ≤ (if b.stop > cs then b.stop else cs) ∧
        ((if b.stop > cs then b.stop else cs) = b.stop ∨
          (if b.stop > cs then b.stop else cs) = cs) := by
      split_ifs <;> omega
    by_cases h1 : b.start < ae
    · by_cases h2 : b.stop ≥ ae
      · -- break: the blocked interval reaches past the available end
        rw [carve_cons_break cs rest h1 h2]
        refine ⟨fun x => ?_, fun x _ => Iff.rfl, hN⟩
        rw [covers_append, covers_if_singleton, covers_if_singleton,
          covers_cons, Interval.mem_def, Interval.mem_def, Interval.mem_def]
        dsimp only
        by_cases hcx : covers rest x
        · have hbx := covers_ge hge hcx
          simp only [hcx, or_true, not_true]
          omega
        · simp only [hcx, or_false]
          omega
      · -- recursive: the blocked interval is consumed
        rw [carve_cons_rec cs rest h1 h2]
        obtain ⟨ih1, ih2, ih3⟩ := ih (if b.stop > cs then b.stop else cs) hrestN
        refine ⟨fun x => ?_, fun x hx => ?_, ih3⟩
        · rw [covers_append, covers_if_singleton, ih1 x, covers_cons,
            Interval.mem_def, Interval.mem_def]
          dsimp only
          by_cases hcx : covers rest x
          · have hbx := covers_ge hge hcx
            simp only [hcx, or_true, not_true, and_false, or_false, iff_false]
            omega
          · simp only [hcx, or_false, not_false_eq_true, and_true]
            omega
        · rw [ih2 x hx, covers_cons]
          constructor
          · exact Or.inr
          · rintro (hmem | h)
            · exact absurd hmem.2 (by omega)
            · exact h
    · -- the blocked interval starts at or past the available end
      rw [carve_cons_skip cs rest h1]
      refine ⟨fun x => ?_, fun x _ => Iff.rfl, hN⟩
      rw [covers_if_singleton, covers_cons, Interval.mem_def, Interval.mem_def]
      dsimp only
      by_cases hcx : covers rest x
      · have hbx := covers_ge hge hcx
        simp only [hcx, or_true, not_true]
        omega
      · simp only [hcx, or_false]
        omega

theorem removeLoop_spec :
    ∀ (avail blocked : List Interval), Normalized avail → Normalized blocked →
      ∀ x, covers (removeLoop blocked avail) x ↔
        (covers avail x ∧ ¬ covers blocked x) := by
  intro avail
  induction avail with
  | nil =>
    intro blocked _ _ x
    rw [removeLoop, covers_nil_iff]
    tauto
  | cons a rest ih =>
    intro blocked hN hB x
    obtain ⟨hrestN, hge⟩ := hN.cons
    have hawf := hN.1 a (List.mem_cons_self a rest)
    rw [Interval.wf] at hawf
    obtain ⟨hskN, hskC⟩ := skipBlocks_spec a.start blocked hB
    obtain ⟨hc1, hc2, hc3⟩ := carve_spec a.stop (skipBlocks a.start blocked) a.start hskN
    rw [removeLoop]
    rw [covers_append, covers_cons]
    rw [hc1 x, ih _ hrestN hc3 x]
    have hrx : covers rest x → a.stop ≤ x := covers_ge hge
    constructor
    · rintro (⟨hx1, hx2, hx3⟩ | ⟨hx1, hx2⟩)
      · refine ⟨Or.inl ⟨hx1, hx2⟩, fun hbl => hx3 ((hskC x hx1).mpr hbl)⟩
      · have hax := hrx hx1
        refine ⟨Or.inr hx1, fun hbl => hx2 ?_⟩
        exact (hc2 x hax).mpr ((hskC x (by omega)).mpr hbl)
    · rintro ⟨hmem | hx1, hnb⟩
      · refine Or.inl ⟨hmem.1, hmem.2, fun hsk => hnb ((hskC x hmem.1).mp hsk)⟩
      · have hax := hrx hx1
        refine Or.inr ⟨hx1, fun hrem => hnb ?_⟩
        exact (hskC x (by omega)).mp ((hc2 x hax).mp hrem)

/-- Claim C1: for normalized `available` and `blocked` interval lists, an
instant is covered by `removeAvailability available blocked` exactly when
it is covered by `available` and not covered by `blocked`. -/
theorem removeAvailability_subtract_correct (avail blocked : List Interval)
    (ha : Normalized avail) (hb : Normalized blocked) (x : Int) :
    covers (removeAvailability avail blocked) x ↔
      (covers avail x ∧ ¬ covers blocked x) := by
  rw [removeAvailability]
  split_ifs with hempty
  · have hbl : blocked = [] := by
      cases blocked with
      | nil => rfl
      | cons b t => exact absurd hempty (by simp)
    rw [hbl, covers_nil_iff]
    tauto
  · exact removeLoop_spec avail blocked ha hb x

/-- Claim C1 witness: concrete normalized inputs satisfying the
hypotheses, with the subtraction equivalence evaluated at the instant 7:
the result `[0,5) ++ [25,30)` does not cover 7, matching `available`
minus `blocked` there (7 lies in the blocked interval `[5,25)`). -/
theorem removeAvailability_subtract_correct_witness :
    Normalized [(⟨0, 10⟩ : Interval), ⟨20, 30⟩] ∧
    Normalized [(⟨5, 25⟩ : Interval)] ∧
    (covers (removeAvailability [⟨0, 10⟩, ⟨20, 30⟩] [⟨5, 25⟩]) 7 ↔
      (covers [(⟨0, 10⟩ : Interval), ⟨20, 30⟩] 7 ∧
        ¬ covers [(⟨5, 25⟩ : Interval)] 7)) :=
  ⟨by decide, by decide,
    removeAvailability_subtract_correct [⟨0, 10⟩, ⟨20, 30⟩] [⟨5, 25⟩]
      (by decide) (by decide) 7⟩

/-! ## Claim C8: interval well-formedness and the positivity assertion -/

theorem mapM_option_eq_none {α β : Type} (f : α → Option β) :
    ∀ (l : List α), (∃ s ∈ l, f s = none) → l.mapM f = none := by
  intro l
  induction l with
  | nil =>
    rintro ⟨s, hs, _⟩
    exact absurd hs (List.not_mem_nil s)
  | cons a t ih =>
    rintro ⟨s, hs, hfs⟩
    rw [List.mapM_cons]
    rcases List.mem_cons.mp hs with rfl | hs2
    · rw [hfs]
      rfl
    · cases hfa : f a with
      | none => rfl
      | some b =>
        rw [ih ⟨s, hs2, hfs⟩]
        rfl

theorem mapM_option_mem {α β : Type} (f : α → Option β) :
    ∀ (l : List α) (out : List β), l.mapM f = some out →
      ∀ i ∈ out, ∃ s ∈ l, f s = some i := by
  intro l
  induction l with
  | nil =>
    intro out h i hi
    rw [List.mapM_nil] at h
    obtain rfl : ([] : List β) = out := by simpa using h
    exact absurd hi (List.not_mem_nil i)
  | cons a t ih =>
    intro out h i hi
    rw [List.mapM_cons] at h
    cases hfa : f a with
    | none =>
      rw [hfa] at h
      simp at h
    | some b =>
      rw [hfa] at h
      cases hmt : t.mapM f with
      | none =>
        rw [hmt] at h
        simp at h
      | some xs =>
        rw [hmt] at h
        obtain rfl : b :: xs = out := by simpa using h
        rcases List.mem_cons.mp hi with rfl | hi2
        · exact ⟨a, List.mem_cons_self a t, hfa⟩
        · obtain ⟨s, hs, hfs⟩ := ih xs hmt i hi2
          exact ⟨s, List.mem_cons_of_mem a hs, hfs⟩

theorem intersectIntervals_wf {a b i : Interval} (ha : a.wf) (hb : b.wf)
    (h : intersectIntervals a b = some i) : i.wf := by
  rw [Interval.wf] at ha hb
  rw [intersectIntervals_eq] at h
  split_ifs at h with hc
  · have h2 := (Option.some.inj h).symm
    rw [Interval.wf, h2]
    dsimp only
    simp only [clamp, min_def, max_def]
    split_ifs <;> omega

theorem mergeIntervals_wf {a b m : Interval} (ha : a.wf) (hb : b.wf)
    (h : mergeIntervals a b = some m) : m.wf := by
  obtain ⟨h1, h2, _, _⟩ := mergeIntervals_some h
  rw [Interval.wf] at ha hb ⊢
  rw [h1, h2]
  omega

theorem normReduce_wf :
    ∀ (l : List Interval) (last : Interval), last.wf → (∀ i ∈ l, i.wf) →
      ∀ j ∈ normReduce last l, j.wf := by
  intro l
  induction l with
  | nil =>
    intro last hl _ j hj
    rw [normReduce] at hj
    obtain rfl := List.mem_singleton.mp hj
    exact hl
  | cons cur rest ih =>
    intro last hl hall j hj
    have hcur : cur.wf := hall cur (List.mem_cons_self cur rest)
    have hrest : ∀ i ∈ rest, i.wf :=
      fun i hi => hall i (List.mem_cons_of_mem cur hi)
    cases hm : mergeIntervals last cur with
    | some merged =>
      simp only [normReduce, hm] at hj
      exact ih merged (mergeIntervals_wf hl hcur hm) hrest j hj
    | none =>
      simp only [normReduce, hm] at hj
      rcases List.mem_cons.mp hj with rfl | hj2
      · exact hl
      · exact ih cur hcur hrest j hj2

theorem normalizeIntervals_wf (xs : List Interval) (h : ∀ i ∈ xs, i.wf) :
    ∀ j ∈ normalizeIntervals xs, j.wf := by
  intro j hj
  rw [normalizeIntervals] at hj
  split_ifs at hj with hlen
  · exact h j hj
  · have hperm := List.perm_insertionSort startLE xs
    cases his : List.insertionSort startLE xs with
    | nil =>
      rw [his] at hj
      exact absurd hj (List.not_mem_nil j)
    | cons x xs2 =>
      rw [his] at hj hperm
      have hall : ∀ i ∈ x :: xs2, i.wf := fun i hi => h i (hperm.subset hi)
      exact normReduce_wf xs2 x (hall x (List.mem_cons_self x xs2))
        (fun i hi => hall i (List.mem_cons_of_mem x hi)) j hj

theorem carve_wf (ae : Int) :
    ∀ (l : List Interval) (cs : Int), ∀ j ∈ (carve ae cs l).1, j.wf := by
  intro l
  induction l with
  | nil =>
    intro cs j hj
    rw [carve_nil] at hj
    dsimp only at hj
    split_ifs at hj with h
    · obtain rfl := List.mem_singleton.mp hj
      exact h
    · exact absurd hj (List.not_mem_nil j)
  | cons b rest ih =>
    intro cs j hj
    by_cases h1 : b.start < ae
    · by_cases h2 : b.stop ≥ ae
      · rw [carve_cons_break cs rest h1 h2] at hj
        dsimp only at hj
        rcases List.mem_append.mp hj with hj2 | hj2 <;>
          split_ifs at hj2 <;>
            first
              | exact absurd hj2 (List.not_mem_nil j)
              | (obtain rfl := List.mem_singleton.mp hj2
                 rw [Interval.wf]
                 dsimp only
                 omega)
      · rw [carve_cons_rec cs rest h1 h2] at hj
        dsimp only at hj
        rcases List.mem_append.mp hj with hj2 | hj2
        · split_ifs at hj2 with h3
          · obtain rfl := List.mem_singleton.mp hj2
            exact h3
          · exact absurd hj2 (List.not_mem_nil j)
        · exact ih _ j hj2
    · rw [carve_cons_skip cs rest h1] at hj
      dsimp only at hj
      split_ifs at hj with h3
      · obtain rfl := List.mem_singleton.mp hj
        exact h3
      · exact absurd hj (List.not_mem_nil j)

theorem removeLoop_wf :
    ∀ (avail blocked : List Interval), ∀ j ∈ removeLoop blocked avail, j.wf := by
  intro avail
  induction avail with
  | nil =>
    intro blocked j hj
    rw [removeLoop] at hj
    exact absurd hj (List.not_mem_nil j)
  | cons a rest ih =>
    intro blocked j hj
    simp only [removeLoop] at hj
    rcases List.mem_append.mp hj with hj2 | hj2
    · exact carve_wf a.stop _ a.start j hj2
    · exact ih _ j hj2

theorem removeAvailability_wf (av bl : List Interval) (h : ∀ i ∈ av, i.wf) :
    ∀ j ∈ removeAvailability av bl, j.wf := by
  intro j hj
  rw [removeAvailability] at hj
  split_ifs at hj with he
  · exact h j hj
  · exact removeLoop_wf av bl j hj

theorem applyExistingSlots_assert (av : List Interval) (sl : List Slot)
    (r : Interval)
    (h : ∃ s ∈ sl, (s.status = SlotStatus.free ∨ s.status = SlotStatus.busy ∨
      s.status = SlotStatus.busyUnavailable) ∧ s.stop < s.start) :
    applyExistingSlots av sl r = none := by
  obtain ⟨s, hs, hstat, hlt⟩ := h
  have hnone : interval s.start s.stop = none := by
    rw [interval, if_pos (by omega)]
  rcases hstat with hf | hb
  · have hm : (sl.filter (fun s => decide (s.status = SlotStatus.free))).mapM
        (fun s => interval s.start s.stop) = none :=
      mapM_option_eq_none _ _ ⟨s, List.mem_filter.mpr ⟨hs, by simp [hf]⟩, hnone⟩
    rw [applyExistingSlots, hm]
    rfl
  · cases hfm : (sl.filter (fun s => decide (s.status = SlotStatus.free))).mapM
        (fun s => interval s.start s.stop) with
    | none =>
      rw [applyExistingSlots, hfm]
      rfl
    | some freeRaw =>
      have hm : (sl.filter (fun s => decide (s.status = SlotStatus.busy ∨
          s.status = SlotStatus.busyUnavailable))).mapM
          (fun s => interval s.start s.stop) = none :=
        mapM_option_eq_none _ _
          ⟨s, List.mem_filter.mpr ⟨hs, by rcases hb with h | h <;> simp [h]⟩,
            hnone⟩
      rw [applyExistingSlots, hfm]
      simp only [Option.bind_eq_bind, Option.some_bind]
      rw [hm]
      rfl

theorem applyExistingSlots_wf (av : List Interval) (sl : List Slot)
    (r : Interval) (out : List Interval) (hr : r.wf) (hav : ∀ i ∈ av, i.wf)
    (hsl : ∀ s ∈ sl, s.start < s.stop)
    (h : applyExistingSlots av sl r = some out) : ∀ j ∈ out, j.wf := by
  cases hfm : (sl.filter (fun s => decide (s.status = SlotStatus.free))).mapM
      (fun s => interval s.start s.stop) with
  | none =>
    rw [applyExistingSlots, hfm] at h
    exact absurd h (by simp)
  | some freeRaw =>
    cases hbm : (sl.filter (fun s => decide (s.status = SlotStatus.busy ∨
        s.status = SlotStatus.busyUnavailable))).mapM
        (fun s => interval s.start s.stop) with
    | none =>
      rw [applyExistingSlots, hfm] at h
      simp only [Option.bind_eq_bind, Option.some_bind] at h
      rw [hbm] at h
      exact absurd h (by simp)
    | some busyRaw =>
      rw [applyExistingSlots, hfm] at h
      simp only [Option.bind_eq_bind, Option.some_bind] at h
      rw [hbm] at h
      simp only [Option.bind_eq_bind, Option.some_bind, Option.pure_def,
        Option.some.injEq] at h
      subst h
      refine removeAvailability_wf _ _ (normalizeIntervals_wf _ ?_)
      intro i hi
      rcases List.mem_append.mp hi with hi2 | hi2
      · exact hav i hi2
      · obtain ⟨oi, hoi, hid⟩ := List.mem_filterMap.mp hi2
        obtain ⟨fr, hfr, hfr2⟩ := List.mem_map.mp hoi
        simp only [id_eq] at hid
        rw [← hfr2] at hid
        obtain ⟨s, hsmem, hs2⟩ := mapM_option_mem _ _ freeRaw hfm fr hfr
        have hswf := hsl s (List.mem_filter.mp hsmem).1
        have hfrwf : fr.wf := by
          rw [interval] at hs2
          split_ifs at hs2 with hgt
          have h3 := Option.some.inj hs2
          rw [Interval.wf, ← h3]
          dsimp only
          omega
        exact intersectIntervals_wf hfrwf hr hid

theorem resolveAvailability_wf (oz : Int) (sp : SchedulingParameters)
    (range : Interval) (hr : range.wf)
    (hdur : ∀ a ∈ sp.availability, 0 < a.duration) :
    ∀ i ∈ resolveAvailability oz sp range, i.wf := by
  intro i hi
  rw [resolveAvailability] at hi
  obtain ⟨day, hday, hi2⟩ := List.mem_flatMap.mp hi
  obtain ⟨oi, hoi, hoi2⟩ := List.mem_filterMap.mp hi2
  obtain ⟨a, ha2, hoi3⟩ := List.mem_flatMap.mp hoi
  obtain ⟨t, ht, hoi4⟩ := List.mem_map.mp hoi3
  have hdur2 : 0 < a.duration := hdur a (List.mem_filter.mp ha2).1
  simp only [id_eq] at hoi2
  dsimp only at hoi4
  rw [← hoi4] at hoi2
  refine intersectIntervals_wf ?_ hr hoi2
  rw [Interval.wf]
  dsimp only
  omega

/-- Claim C8 (amended): the booking constructor in `applyExistingSlots`
fails fast (throws) when a relevant booking has end strictly before start;
and given well-formed inputs (positive rule durations, bookings with
start < end, well-formed ranges and availability) every interval emitted
by each operation satisfies start < end.  `resolveAvailability` itself
performs no assertion: a zero/negative-duration rule silently yields
intervals with end ≤ start (see the counterexample). -/
theorem wellformedness_contract :
    (∀ (av : List Interval) (sl : List Slot) (r : Interval),
      (∃ s ∈ sl, (s.status = SlotStatus.free ∨ s.status = SlotStatus.busy ∨
        s.status = SlotStatus.busyUnavailable) ∧ s.stop < s.start) →
      applyExistingSlots av sl r = none) ∧
    (∀ a b i : Interval, a.wf → b.wf → intersectIntervals a b = some i →
      i.wf) ∧
    (∀ a b m : Interval, a.wf → b.wf → mergeIntervals a b = some m →
      m.wf) ∧
    (∀ xs : List Interval, (∀ i ∈ xs, i.wf) →
      ∀ j ∈ normalizeIntervals xs, j.wf) ∧
    (∀ av bl : List Interval, (∀ i ∈ av, i.wf) →
      ∀ j ∈ removeAvailability av bl, j.wf) ∧
    (∀ (oz : Int) (sp : SchedulingParameters) (r : Interval), r.wf →
      (∀ a ∈ sp.availability, 0 < a.duration) →
      ∀ i ∈ resolveAvailability oz sp r, i.wf) ∧
    (∀ (oz : Int) (iv : Interval) (o : AlignOptions), 0 < o.durationMinutes →
      ∀ s ∈ findAlignedSlots oz iv o, s.wf) ∧
    (∀ (av : List Interval) (sl : List Slot) (r : Interval)
        (out : List Interval), r.wf → (∀ i ∈ av, i.wf) →
      (∀ s ∈ sl, s.start < s.stop) → applyExistingSlots av sl r = some out →
      ∀ j ∈ out, j.wf) :=
  ⟨applyExistingSlots_assert,
    fun _ _ _ ha hb h => intersectIntervals_wf ha hb h,
    fun _ _ _ ha hb h => mergeIntervals_wf ha hb h,
    normalizeIntervals_wf,
    removeAvailability_wf,
    resolveAvailability_wf,
    findAlignedSlots_wf,
    applyExistingSlots_wf⟩

/-- Claim C8 witness: a booking with end before start makes
`applyExistingSlots` fail, and a concrete emitted slot of
`findAlignedSlots` is well-formed, with all hypotheses discharged on
concrete inputs. -/
theorem wellformedness_contract_witness :
    applyExistingSlots [] [⟨10, 5, SlotStatus.busy⟩] ⟨0, 100⟩ = none ∧
    (⟨0, 1200000⟩ : Interval).wf :=
  ⟨wellformedness_contract.1 [] [⟨10, 5, SlotStatus.busy⟩] ⟨0, 100⟩
      (by decide),
    wellformedness_contract.2.2.2.2.2.2.1 0 ⟨0, 3600000⟩ ⟨60, 0, 20⟩
      (by decide) ⟨0, 1200000⟩ (by decide)⟩

/-- Claim C8 counterexample: a rule entry with `duration = 0` does not
fail fast: `resolveAvailability` (a total function with no assertion path)
silently emits the empty interval 10:00-10:00 on Thursday 1970-01-01,
clipped against the range - an interval with end ≤ start is produced
rather than an invariant violation being raised. -/
theorem resolveAvailability_no_assert_counterexample :
    resolveAvailability 0 ⟨[⟨[.thu], [⟨10, 0, 0⟩], 0⟩], 20, 0, 0, 60, 0, true⟩
        ⟨0, 86400000⟩ = [⟨36000000, 36000000⟩] ∧
    ∃ i ∈ resolveAvailability 0
        ⟨[⟨[.thu], [⟨10, 0, 0⟩], 0⟩], 20, 0, 0, 60, 0, true⟩
        ⟨0, 86400000⟩, ¬ i.wf := by
  constructor <;> decide

/-! ## Remaining witnesses -/

/-- Claim C3 witness: the interval 0 - 2h with alignment 15, offset 0,
duration 15 emits the slot 0 - 15min; all hypotheses hold on these
concrete inputs and the three slot properties are produced by the claim
theorem. -/
theorem findAlignedSlots_grid_witness :
    ((⟨0, 900000⟩ : Interval).stop - (⟨0, 900000⟩ : Interval).start =
        15 * 60000 ∧
      (⟨0, 900000⟩ : Interval).stop ≤ (⟨0, 7200000⟩ : Interval).stop) ∧
    mod (getMinutes 0 (⟨0, 900000⟩ : Interval).start - 0) 15 = 0 :=
  ⟨(findAlignedSlots_grid 0 ⟨0, 7200000⟩ ⟨15, 0, 15⟩ (by decide)
      (by decide)).1 ⟨0, 900000⟩ (by decide),
    (findAlignedSlots_grid 0 ⟨0, 7200000⟩ ⟨15, 0, 15⟩ (by decide)
      (by decide)).2 ⟨0, by norm_num⟩ ⟨4, by norm_num⟩ ⟨0, 900000⟩
      (by decide)⟩

/-- Claim C6 witness: one normalized availability interval 0 - 1h with
alignment 30 and duration 20 yields an ordered non-overlapping slot list,
with all hypotheses discharged on the concrete input. -/
theorem alignedSlots_ordered_witness :
    Normalized [(⟨0, 3600000⟩ : Interval)] ∧
    (List.Chain' (fun s t => s.stop ≤ t.start)
      ([(⟨0, 3600000⟩ : Interval)].flatMap
        (fun iv => findAlignedSlots 0 iv ⟨30, 0, 20⟩)) ∧
    ∀ s ∈ [(⟨0, 3600000⟩ : Interval)].flatMap
        (fun iv => findAlignedSlots 0 iv ⟨30, 0, 20⟩), s.wf) :=
  ⟨by decide,
    alignedSlots_ordered 0 [⟨0, 3600000⟩] ⟨30, 0, 20⟩ (by decide) (by decide)
      (by decide) (by decide)⟩

/-- Claim C7 witness: the valid intervals `[0,5)` and `[5,9)` touch
exactly; intersect rejects them while merge fuses them. -/
theorem intersect_merge_endpoint_asymmetry_witness :
    (⟨0, 5⟩ : Interval).wf ∧
    (intersectIntervals ⟨0, 5⟩ ⟨5, 9⟩ = none ∧
      mergeIntervals ⟨0, 5⟩ ⟨5, 9⟩ = some ⟨0, 9⟩) :=
  ⟨by decide,
    (intersect_merge_endpoint_asymmetry ⟨0, 5⟩ ⟨5, 9⟩ (by decide)
      (by decide)).1 rfl⟩

/-- Claim C9 witness: a strictly normalized two-interval list is returned
unchanged by `normalizeIntervals`, with the hypothesis discharged on the
concrete input. -/
theorem normalizeIntervals_idempotent_witness :
    StrictNormalized [(⟨0, 5⟩ : Interval), ⟨7, 9⟩] ∧
    normalizeIntervals [(⟨0, 5⟩ : Interval), ⟨7, 9⟩] = [⟨0, 5⟩, ⟨7, 9⟩] :=
  ⟨by decide, (normalizeIntervals_idempotent [⟨0, 5⟩, ⟨7, 9⟩]).2 (by decide)⟩

end MedplumFind
